import Mathlib

/-!
Verification of dice_stats.py: a shallow embedding of the dice-roll
statistics utility (file discovery, die-file parsing, descriptive summary,
chi-squared fairness test, help/dispatch) together with theorems settling
the specification claims.

Numeric conventions: Python floats are modelled by rationals, machine
integers by ℤ.  A Python file opened for text reading is modelled as the
list of its lines exactly as Python iteration yields them (each line keeps
its trailing newline, except possibly the last); a file that cannot be
opened is modelled as `none`.
-/

/-- Python whitespace characters, as recognised by `str.strip()` and by
`int(str)`: space, tab, newline, carriage return, vertical tab, form feed. -/
def isPyWs (c : Char) : Bool :=
  c == ' ' || c == '\t' || c == '\n' || c == '\r' || c == '\x0b' || c == '\x0c'

/-- Strip Python whitespace from both ends of a character list
(the behaviour of `str.strip()` and of the whitespace tolerance in
`int(str)`). -/
def pyStripChars (cs : List Char) : List Char :=
  ((cs.dropWhile isPyWs).reverse.dropWhile isPyWs).reverse

/-- String-level Python `strip()`. -/
def pyStrip (s : String) : String :=
  String.mk (pyStripChars s.toList)

/-- Accumulate the base-10 value of a run of characters, failing on the
first non-digit (the digit-consuming core of Python `int(str)`). -/
def digitsVal : List Char → ℕ → Option ℕ
  | [], acc => some acc
  | c :: cs, acc =>
    if c.isDigit then digitsVal cs (10 * acc + (c.toNat - 48)) else none

/-- Parse a non-empty all-digit run as a natural number; an empty run fails
(Python `int("")` and `int("+")` raise ValueError). -/
def parseDigits : List Char → Option ℕ
  | [] => none
  | c :: cs => digitsVal (c :: cs) 0

/-- The base-10 value of a digit run. -/
def digitsNat (ds : List Char) : ℕ :=
  ds.foldl (fun a c => 10 * a + (c.toNat - 48)) 0

/-- The sign-and-digits phase of Python `int(str)`, applied after
whitespace stripping: one optional leading sign, then one or more base-10
digits, nothing else. -/
def pythonIntCore : List Char → Option ℤ
  | [] => none
  | c :: rest =>
    if c = '+' then (parseDigits rest).map (fun n => (n : ℤ))
    else if c = '-' then (parseDigits rest).map (fun n => -(n : ℤ))
    else (parseDigits (c :: rest)).map (fun n => (n : ℤ))

/-- Python 2 `int(s)` on a text line: strips surrounding whitespace, accepts
one optional leading sign, then requires one or more base-10 digits; any
other input raises ValueError, modelled as `none`. -/
def pythonInt (s : String) : Option ℤ :=
  pythonIntCore (pyStripChars s.toList)

/-- The signed value denoted by an optional sign character followed by a
digit run. -/
def pySignVal (sgn : List Char) (n : ℕ) : ℤ :=
  if sgn = ['-'] then -(n : ℤ) else (n : ℤ)

/-- Errors that can abort `_read_die_file`: the IOError from `open`, or the
ValueError from `int(line)` on a non-integer roll line. -/
inductive ParseErr : Type
  | ioError : ParseErr
  | badLine : String → ParseErr
deriving DecidableEq

/-- One `die_rolls[line] = die_rolls[line] + 1 if line in die_rolls else 1`
step of `_read_die_file`: the frequency dictionary is an association list
with unique keys; an existing key has its count incremented in place, a new
key is appended. -/
def addRoll : List (ℤ × ℕ) → ℤ → List (ℤ × ℕ)
  | [], v => [(v, 1)]
  | (k, c) :: rest, v =>
    if k = v then (k, c + 1) :: rest else (k, c) :: addRoll rest v

/-- The roll-binning loop of `_read_die_file` over the non-first lines. -/
def read_die_file_loop : List String → List (ℤ × ℕ) → Except ParseErr (List (ℤ × ℕ))
  | [], table => .ok table
  | l :: ls, table =>
    match pythonInt l with
    | none => .error (.badLine l)
    | some v => read_die_file_loop ls (addRoll table v)

/-- Embedding of `_read_die_file`: `none` models a file that cannot be
opened (the IOError propagates).  The first line, verbatim with its
terminator, becomes the description; every later line goes through
`int(line)` and is binned.  A file with zero lines never enters the loop
body and so yields the initial `die_desc = ""` and `die_rolls = {}`. -/
def read_die_file : Option (List String) → Except ParseErr (String × List (ℤ × ℕ))
  | none => .error .ioError
  | some [] => .ok ("", [])
  | some (d :: rest) =>
    match read_die_file_loop rest [] with
    | .error e => .error e
    | .ok table => .ok (d, table)

/-- Total number of observed rolls recorded in a frequency table. -/
def sumCounts : List (ℤ × ℕ) → ℕ
  | [] => 0
  | (_, c) :: rest => c + sumCounts rest

/-- The count recorded for one face value (0 when the key is absent,
matching the sparse-dictionary representation). -/
def countVal : List (ℤ × ℕ) → ℤ → ℕ
  | [], _ => 0
  | (k, c) :: rest, z => (if k = z then c else 0) + countVal rest z

/-- Whether an `Except` computation succeeded. -/
def exceptIsOk : Except ParseErr α → Bool
  | .ok _ => true
  | .error _ => false

/-- The p-value of the chi-squared test is `chi2.sf(stat, dof)`, the
survival function of the chi-squared distribution — a transcendental
function, kept symbolic here as its two arguments.  scipy returns NaN when
`dof <= 0` (fewer than two categories); it raises no exception. -/
structure ChiSqP : Type where
  stat : ℚ
  dof : ℤ
deriving DecidableEq

/-- Embedding of `scipy.stats.chisquare(numpy.array(obs))` as called with
no expected-value argument: the expected array is the observed mean
broadcast over the `k = obs.length` categories, the statistic is the sum of
the elementwise `(observed - expected)**2 / expected` terms, and the
p-value is the chi-squared survival function at the statistic with
`k - 1` degrees of freedom.  scipy performs no input validation: with
fewer than two categories it still returns a `(statistic, pvalue)` pair
(the p-value being NaN). -/
def chisquare (obs : List ℚ) : ℚ × ChiSqP :=
  let f_exp := List.replicate obs.length (obs.sum / (obs.length : ℚ))
  let terms := List.zipWith (fun o e => (o - e) ^ 2 / e) obs f_exp
  let stat := terms.sum
  (stat, ⟨stat, (obs.length : ℤ) - 1⟩)

/-- One Python dictionary assignment `results[desc_str] = v` on an
association list with unique keys: replace the value of an existing key in
place, append a new key. -/
def dictInsert {α : Type} : List (String × α) → String → α → List (String × α)
  | [], k, v => [(k, v)]
  | (k', v') :: rest, k, v =>
    if k' = k then (k, v) :: rest else (k', v') :: dictInsert rest k v

/-- The result-collecting loop of `_calculate_chi_squared`. -/
def calcChiSqLoop : List (String × List ℚ) → List (String × (ℚ × ChiSqP)) → List (String × (ℚ × ChiSqP))
  | [], results => results
  | t :: rest, results => calcChiSqLoop rest (dictInsert results t.1 (chisquare t.2))

/-- Embedding of `_calculate_chi_squared`: run `chisquare` on each
`(description, observed rolls)` tuple and collect the results into a
dictionary indexed on the description strings exactly as given. -/
def calculate_chi_squared (descRollsTuples : List (String × List ℚ)) : List (String × (ℚ × ChiSqP)) :=
  calcChiSqLoop descRollsTuples []

/-- The number of entries a dictionary holds under one key. -/
def keysCount {α : Type} : List (String × α) → String → ℕ
  | [], _ => 0
  | (k, _) :: rest, d => (if k = d then 1 else 0) + keysCount rest d

/-- Dictionary lookup `m[d]`. -/
def lookupDict {α : Type} : List (String × α) → String → Option α
  | [], _ => none
  | (k, v) :: rest, d => if k = d then some v else lookupDict rest d

/-- `die_roll_dict.values()`, as handed to `numpy.array`: the per-face
counts as floats. -/
def dictValues (t : List (ℤ × ℕ)) : List ℚ :=
  t.map (fun p => ((p.2 : ℕ) : ℚ))

/-- The aggregation performed by the `chi_sq` command: parse each die file,
pair its verbatim description with its observed counts, and feed the tuples
to `_calculate_chi_squared`.  (The surrounding printing sorts the keys and
strips each description only for display.) -/
def chiSqAggregate (files : List (List String)) : Except ParseErr (List (String × (ℚ × ChiSqP))) := do
  let recs ← files.mapM (fun f => read_die_file (some f))
  return calculate_chi_squared (recs.map (fun r => (r.1, dictValues r.2)))

/-- The average-roll computation inside the `basic` command:
`numpy.sum(rolls * side_val) / float(numpy.sum(rolls))` where `side_val`
is the array of face values and `rolls` the aligned array of counts. -/
def basic_average (t : List (ℤ × ℕ)) : ℚ :=
  (List.zipWith (fun a b => a * b) (t.map (fun p => ((p.2 : ℕ) : ℚ))) (t.map (fun p => ((p.1 : ℤ) : ℚ)))).sum /
    (t.map (fun p => ((p.2 : ℕ) : ℚ))).sum

/-- The raw roll sequence a frequency table stands for: each face value
repeated as many times as it was counted. -/
def expandRolls : List (ℤ × ℕ) → List ℚ
  | [] => []
  | (v, c) :: rest => List.replicate c ((v : ℤ) : ℚ) ++ expandRolls rest

/-- Arithmetic mean of a list of rationals. -/
def listMean (xs : List ℚ) : ℚ :=
  xs.sum / (xs.length : ℚ)

/-- The parts of the file system that `_sort_all_apropriate_files` touches:
`os.path.abspath`, `os.path.isdir`, `os.path.isfile` and `glob.iglob`. -/
structure FS : Type where
  abspath : String → String
  isDir : String → Bool
  isFile : String → Bool
  glob : String → List String

/-- `os.path.join(a, b)` for a non-absolute second component. -/
def pathJoin (a b : String) : String :=
  if a.endsWith "/" then a ++ b else a ++ "/" ++ b

/-- `os.path.splitext(p)[-1]`: the extension starts at the last dot of the
final path component, except that a dot can only begin the extension when
some earlier character of that component is not a dot (so dotfiles like
`.txt` have no extension). -/
def splitextExt (p : String) : String :=
  let base := p.toList.foldl (fun acc c => if c = '/' then [] else acc ++ [c]) []
  let rbase := base.reverse
  let after := rbase.takeWhile (fun c => c ≠ '.')
  if after.length = rbase.length then ""
  else if (rbase.drop (after.length + 1)).any (fun c => c ≠ '.') then
    String.mk ('.' :: after.reverse)
  else ""

/-- Embedding of `_sort_all_apropriate_files`: make the path absolute,
rewrite a directory path to `<dir>/*<suffix>`, expand the pattern with
`iglob`, and keep exactly the candidates that are regular files whose
`splitext` extension equals the suffix; everything else is silently
skipped, and no error is possible at this layer. -/
def sort_all_apropriate_files (fs : FS) (path : String) (typeSuffixStr : String) : List String :=
  (fs.glob (if fs.isDir (fs.abspath path) then
              pathJoin (fs.abspath path) ("*" ++ typeSuffixStr)
            else fs.abspath path)).filter
    (fun possPath => fs.isFile possPath && (splitextExt possPath == typeSuffixStr))

/-- Docstring of the local `basic` command function of `main`. -/
def basic_doc : String :=
  " show basic analysis of the dice data\n        \n        basic analysis loads die roll data and displays simple\n        textual information about the rolls, including overall\n        counts, average value rolled, and a crappy ASCII histogram.\n        "

/-- Docstring of the local `chi_sq` command function of `main`. -/
def chi_sq_doc : String :=
  " run a chi squared analysis of a die\x27s rolls\n        \n        the chi squared analysis runs a standard chi squared\n        analysis on each die file separately, comparing the\n        die\x27s rolls to an expected result of a perfectly fair die\n        "

/-- Docstring of the local `help` command function of `main`. -/
def help_doc : String :=
  "print help for a specific command or list of commands\n        e.g. help swap\n        "

/-- The `commands` dictionary that `main` collects from its local function
definitions: the three command functions, keyed by name, valued by
docstring (the only attribute `help` reads). -/
def commandsTable : List (String × String) :=
  [("basic", basic_doc), ("chi_sq", chi_sq_doc), ("help", help_doc)]

/-- `doc.split(chr(10))[0]`: the first line of a docstring. -/
def firstDocLine (s : String) : String :=
  (s.splitOn "\n").headD ""

/-- The `"%-16s %s" % (cmd, ds)` summary line: the command name
left-justified to width 16, a space, then the first docstring line. -/
def formatHelpLine (name doc : String) : String :=
  name ++ String.mk (List.replicate (16 - name.length) ' ') ++ " " ++ firstDocLine doc

/-- Embedding of the local `help` command: with no argument it prints one
summary line per command; with an argument it prints
`commands[command].__doc__`, where the bare subscript raises `KeyError`
(modelled as `.error command`) whenever the argument is not a key of the
commands dictionary. -/
def helpCommand : Option String → Except String (List String)
  | none => .ok (commandsTable.map (fun p => formatHelpLine p.1 p.2))
  | some command =>
    match lookupDict commandsTable command with
    | some doc => .ok [doc]
    | none => .error command

/-- The names of the commands `main` collects into its dispatch table. -/
def commandNames : List String := ["basic", "chi_sq", "help"]

/-- The value `main()` returns: 1 after printing the usage text and the
command summary when the positional arguments are empty or name no known
command, 0 after dispatching to the named command. -/
def mainReturn (args : List String) : ℕ :=
  match args with
  | [] => 1
  | cmd :: _ => if commandNames.contains cmd then 0 else 1

/-- The interpreter exit status of a run that terminates normally: the
`if __name__ == "__main__":` guard calls `main()` as a bare statement and
discards its return value, so CPython always exits with status 0. -/
def processExit (args : List String) : ℕ :=
  let _ := mainReturn args
  0

lemma read_die_file_loop_isOk (rolls : List String) :
    ∀ t, exceptIsOk (read_die_file_loop rolls t) = true ↔
      ∀ l ∈ rolls, (pythonInt l).isSome = true := by
  induction rolls with
  | nil => intro t; simp [read_die_file_loop, exceptIsOk]
  | cons l ls ih =>
    intro t
    cases hp : pythonInt l with
    | none => simp [read_die_file_loop, hp, exceptIsOk]
    | some v => simp [read_die_file_loop, hp, ih]

/-- Claim C2 (counterexample): a file with zero lines does not fail —
`_read_die_file` returns the record of an empty description and an empty
frequency table. -/
theorem read_die_file_empty_file_returns_record :
    read_die_file (some []) = .ok ("", []) := rfl

/-- Claim C2 (amended): `_read_die_file` fails when the file cannot be
opened or when some non-first line is not a base-10 integer; a file with
zero lines is not an error — it returns the record `("", {})`. -/
theorem read_die_file_failure_conditions :
    exceptIsOk (read_die_file none) = false ∧
    read_die_file (some ([] : List String)) = .ok ("", []) ∧
    ∀ lines : List String,
      exceptIsOk (read_die_file (some lines)) = true ↔
        ∀ l ∈ lines.drop 1, (pythonInt l).isSome = true := by
  refine ⟨rfl, rfl, ?_⟩
  intro lines
  cases lines with
  | nil => simp [read_die_file, exceptIsOk]
  | cons d rest =>
    have h := read_die_file_loop_isOk rest []
    cases hr : read_die_file_loop rest [] with
    | error e =>
      rw [hr] at h
      simp only [exceptIsOk] at h
      simp [read_die_file, hr, exceptIsOk, List.drop_succ_cons, List.drop_zero, ← h]
    | ok t =>
      rw [hr] at h
      simp only [exceptIsOk] at h
      simp [read_die_file, hr, exceptIsOk, List.drop_succ_cons, List.drop_zero, ← h]

/-- Claim C3 (counterexample): with a single observed category the
chi-squared pipeline raises nothing — the result mapping gains the entry
`(statistic 0, sf-arguments (0, 0))` for that record. -/
theorem calculate_chi_squared_single_category_returns_pair :
    calculate_chi_squared [("solo\n", [5])] = [("solo\n", (0, ⟨0, 0⟩))] := by
  simp [calculate_chi_squared, calcChiSqLoop, dictInsert, chisquare]

/-- Claim C3 (amended): `_calculate_chi_squared` performs no category-count
check: for a record with `k = 1` it stores the pair of statistic 0 and the
symbolic p-value `chi2.sf(0, 0)` (NaN in scipy), and for `k = 0` the pair
of statistic 0 and `chi2.sf(0, -1)`; no error is raised for `k < 2`. -/
theorem calculate_chi_squared_no_category_guard (d : String) (c : ℚ) :
    calculate_chi_squared [(d, [c])] = [(d, (0, ⟨0, 0⟩))] ∧
    calculate_chi_squared [(d, ([] : List ℚ))] = [(d, (0, ⟨0, -1⟩))] := by
  constructor
  · simp [calculate_chi_squared, calcChiSqLoop, dictInsert, chisquare]
  · simp [calculate_chi_squared, calcChiSqLoop, dictInsert, chisquare]

/-- Claim C4: `main()` computes 1 as its return value when no command or an
unrecognized command is given and 0 otherwise, but the `__main__` guard
discards that value, so a normally terminating process always exits with
status 0 — the exit status 1 the return value was meant to signal never
reaches the operating system. -/
theorem processExit_always_zero :
    (∀ args : List String, processExit args = 0) ∧
    mainReturn ["frobnicate"] = 1 ∧ mainReturn [] = 1 ∧ mainReturn ["basic"] = 0 :=
  ⟨fun _ => rfl, rfl, rfl, rfl⟩

lemma addRoll_sumCounts (t : List (ℤ × ℕ)) (v : ℤ) :
    sumCounts (addRoll t v) = sumCounts t + 1 := by
  induction t with
  | nil => simp [addRoll, sumCounts]
  | cons p rest ih =>
    obtain ⟨k, c⟩ := p
    by_cases hk : k = v
    · simp [addRoll, hk, sumCounts]
      omega
    · simp [addRoll, hk, sumCounts, ih]
      omega

lemma addRoll_countVal (t : List (ℤ × ℕ)) (v z : ℤ) :
    countVal (addRoll t v) z = countVal t z + (if v = z then 1 else 0) := by
  induction t with
  | nil => simp [addRoll, countVal]
  | cons p rest ih =>
    obtain ⟨k, c⟩ := p
    by_cases hk : k = v
    · have h1 : addRoll ((k, c) :: rest) v = (k, c + 1) :: rest := by
        simp [addRoll, hk]
      rw [h1]
      by_cases hz : k = z
      · have hvz : v = z := hk.symm.trans hz
        simp [countVal, hz, hvz]
        omega
      · have hvz : ¬ v = z := fun h => hz (hk.trans h)
        simp [countVal, hz, hvz]
    · have h1 : addRoll ((k, c) :: rest) v = (k, c) :: addRoll rest v := by
        simp [addRoll, hk]
      rw [h1]
      simp [countVal, ih]
      omega

lemma read_die_file_loop_ok (rolls : List String) :
    ∀ t, (∀ l ∈ rolls, (pythonInt l).isSome = true) →
      ∃ table, read_die_file_loop rolls t = .ok table ∧
        sumCounts table = sumCounts t + rolls.length ∧
        ∀ z : ℤ, countVal table z =
          countVal t z + rolls.countP (fun l => pythonInt l == some z) := by
  induction rolls with
  | nil =>
    intro t _
    exact ⟨t, rfl, by simp [read_die_file_loop], by simp [List.countP_nil]⟩
  | cons l ls ih =>
    intro t h
    have hl : (pythonInt l).isSome = true := h l (List.mem_cons_self l ls)
    obtain ⟨v, hv⟩ := Option.isSome_iff_exists.mp hl
    obtain ⟨table, hok, hsum, hcount⟩ :=
      ih (addRoll t v) (fun x hx => h x (List.mem_cons_of_mem l hx))
    refine ⟨table, ?_, ?_, ?_⟩
    · simp [read_die_file_loop, hv, hok]
    · rw [hsum, addRoll_sumCounts]
      simp
      omega
    · intro z
      rw [hcount z, addRoll_countVal, List.countP_cons]
      by_cases hz : v = z
      · subst hz
        simp [hv]
        omega
      · simp [hv, hz]

/-- Claim C6: for a well-formed die file (every non-first line parses as an
integer), `_read_die_file` returns the verbatim first line and a frequency
table whose counts sum to the number of roll lines, each integer counted
exactly as often as a line denoting it occurs. -/
theorem read_die_file_frequency_invariant (desc : String) (rolls : List String)
    (h : ∀ l ∈ rolls, (pythonInt l).isSome = true) :
    ∃ table, read_die_file (some (desc :: rolls)) = .ok (desc, table) ∧
      sumCounts table = rolls.length ∧
      ∀ z : ℤ, countVal table z = rolls.countP (fun l => pythonInt l == some z) := by
  obtain ⟨table, hok, hsum, hcount⟩ := read_die_file_loop_ok rolls [] h
  refine ⟨table, ?_, ?_, ?_⟩
  · simp [read_die_file, hok]
  · simpa [sumCounts] using hsum
  · intro z
    simpa [countVal] using hcount z

/-- Claim C6 (witness): the invariant evaluated on the spec's example file
`"Red d6\n1\n2\n2\n"`. -/
theorem read_die_file_frequency_invariant_witness :
    (∀ l ∈ ["1\n", "2\n", "2\n"], (pythonInt l).isSome = true) ∧
    ∃ table, read_die_file (some ("Red d6\n" :: ["1\n", "2\n", "2\n"])) = .ok ("Red d6\n", table) ∧
      sumCounts table = 3 ∧
      ∀ z : ℤ, countVal table z = ["1\n", "2\n", "2\n"].countP (fun l => pythonInt l == some z) :=
  ⟨by decide, read_die_file_frequency_invariant "Red d6\n" ["1\n", "2\n", "2\n"] (by decide)⟩

/-- `mean(observedCounts)` as the specification words it. -/
def specMean (xs : List ℚ) : ℚ :=
  xs.sum / (xs.length : ℚ)

/-- The chi-squared test written from the specification text, to be
compared with the embedding of the source: expected count for each of the
`k` categories is `mean(observedCounts)`, the statistic is the sum over
categories of `(observed - expected)^2 / expected`, and the p-value is the
survival function at the statistic with `k - 1` degrees of freedom. -/
def chiSquaredTest_specModel (obs : List ℚ) : ℚ × ChiSqP :=
  let stat := (obs.map (fun o => (o - specMean obs) ^ 2 / specMean obs)).sum
  (stat, ⟨stat, (obs.length : ℤ) - 1⟩)

lemma zipWith_replicate_right {α β γ : Type} (f : α → β → γ) (l : List α) (e : β) :
    List.zipWith f l (List.replicate l.length e) = l.map (fun o => f o e) := by
  induction l with
  | nil => rfl
  | cons a t ih => simp [List.replicate_succ, ih]

/-- Claim C5: on any table with at least two observed categories, the
source's `chisquare` call computes exactly the statistic the specification
describes — expected value the mean of the observed counts, statistic the
sum of `(observed - expected)^2 / expected` — and hands the survival
function `k - 1` degrees of freedom. -/
theorem chisquare_matches_specification (obs : List ℚ) (h : 2 ≤ obs.length) :
    chisquare obs = chiSquaredTest_specModel obs ∧
    (chisquare obs).2.dof = (obs.length : ℤ) - 1 := by
  constructor
  · simp only [chisquare, chiSquaredTest_specModel, specMean, zipWith_replicate_right]
  · rfl

/-- Claim C5 (witness): the refinement evaluated at the two-category table
`[1, 2]`. -/
theorem chisquare_matches_specification_witness :
    2 ≤ ([1, 2] : List ℚ).length ∧
    (chisquare [1, 2] = chiSquaredTest_specModel [1, 2] ∧
     (chisquare [1, 2]).2.dof = (([1, 2] : List ℚ).length : ℤ) - 1) :=
  ⟨by decide, chisquare_matches_specification [1, 2] (by decide)⟩

lemma zipWith_map_same {α β γ δ : Type} (h : β → γ → δ) (f : α → β) (g : α → γ)
    (t : List α) :
    List.zipWith h (t.map f) (t.map g) = t.map (fun p => h (f p) (g p)) := by
  induction t with
  | nil => rfl
  | cons a s ih => simp [ih]

lemma expandRolls_sum (t : List (ℤ × ℕ)) :
    (expandRolls t).sum = (t.map (fun p => ((p.2 : ℕ) : ℚ) * ((p.1 : ℤ) : ℚ))).sum := by
  induction t with
  | nil => rfl
  | cons p rest ih =>
    obtain ⟨v, c⟩ := p
    simp [expandRolls, List.sum_append, ih, List.sum_replicate, nsmul_eq_mul]

lemma expandRolls_length (t : List (ℤ × ℕ)) :
    ((expandRolls t).length : ℚ) = (t.map (fun p => ((p.2 : ℕ) : ℚ))).sum := by
  induction t with
  | nil => rfl
  | cons p rest ih =>
    obtain ⟨v, c⟩ := p
    simp [expandRolls, List.length_append, List.length_replicate]
    rw [ih]

lemma map_mul_comm_sum (s : List (ℤ × ℕ)) :
    (s.map (fun p => ((p.2 : ℕ) : ℚ) * ((p.1 : ℤ) : ℚ))).sum =
    (s.map (fun p => ((p.1 : ℤ) : ℚ) * ((p.2 : ℕ) : ℚ))).sum := by
  have h : (fun p : ℤ × ℕ => ((p.2 : ℕ) : ℚ) * ((p.1 : ℤ) : ℚ)) =
      fun p : ℤ × ℕ => ((p.1 : ℤ) : ℚ) * ((p.2 : ℕ) : ℚ) := by
    funext p
    exact mul_comm _ _
  rw [h]

/-- Claim C7: the average the `basic` command computes equals
`Σ(value × count) / Σ(count)`, which is the arithmetic mean of the raw roll
sequence the frequency table stands for, and it does not depend on the
order in which the face values are iterated. -/
theorem basic_average_is_raw_mean (t t' : List (ℤ × ℕ)) (hne : t ≠ [])
    (hperm : t'.Perm t) :
    basic_average t =
      (t.map (fun p => ((p.1 : ℤ) : ℚ) * ((p.2 : ℕ) : ℚ))).sum /
        (t.map (fun p => ((p.2 : ℕ) : ℚ))).sum ∧
    basic_average t = listMean (expandRolls t) ∧
    basic_average t' = basic_average t := by
  have key : ∀ s : List (ℤ × ℕ), basic_average s =
      (s.map (fun p => ((p.1 : ℤ) : ℚ) * ((p.2 : ℕ) : ℚ))).sum /
        (s.map (fun p => ((p.2 : ℕ) : ℚ))).sum := by
    intro s
    unfold basic_average
    rw [zipWith_map_same]
    congr 1
    exact map_mul_comm_sum s
  refine ⟨key t, ?_, ?_⟩
  · rw [key t]
    unfold listMean
    rw [expandRolls_sum, expandRolls_length]
    congr 1
    exact (map_mul_comm_sum t).symm
  · rw [key t, key t']
    rw [(hperm.map (fun p : ℤ × ℕ => ((p.1 : ℤ) : ℚ) * ((p.2 : ℕ) : ℚ))).sum_eq,
        (hperm.map (fun p : ℤ × ℕ => ((p.2 : ℕ) : ℚ))).sum_eq]

/-- Claim C7 (witness): the mean property evaluated on the two-face table
`{1 ↦ 1, 2 ↦ 2}` and its reversed iteration order. -/
theorem basic_average_is_raw_mean_witness :
    ([(1, 1), (2, 2)] : List (ℤ × ℕ)) ≠ [] ∧
    ([(2, 2), (1, 1)] : List (ℤ × ℕ)).Perm [(1, 1), (2, 2)] ∧
    (basic_average [(1, 1), (2, 2)] =
      (([(1, 1), (2, 2)] : List (ℤ × ℕ)).map (fun p => ((p.1 : ℤ) : ℚ) * ((p.2 : ℕ) : ℚ))).sum /
        (([(1, 1), (2, 2)] : List (ℤ × ℕ)).map (fun p => ((p.2 : ℕ) : ℚ))).sum ∧
     basic_average [(1, 1), (2, 2)] = listMean (expandRolls [(1, 1), (2, 2)]) ∧
     basic_average [(2, 2), (1, 1)] = basic_average [(1, 1), (2, 2)]) :=
  ⟨by decide, by decide,
   basic_average_is_raw_mean [(1, 1), (2, 2)] [(2, 2), (1, 1)] (by decide) (by decide)⟩

/-- Claim C8: a candidate is in the result of `_sort_all_apropriate_files`
exactly when the glob expansion of the (possibly directory-rewritten)
pattern produced it, it is a regular file, and its `splitext` extension is
exactly the suffix; a directory input is rewritten to `<dir>/*<suffix>`
before expansion, and an empty result is an ordinary value, not an
error. -/
theorem sort_all_apropriate_files_membership (fs : FS) (path suffix q : String) :
    q ∈ sort_all_apropriate_files fs path suffix ↔
      q ∈ fs.glob (if fs.isDir (fs.abspath path) then
                     pathJoin (fs.abspath path) ("*" ++ suffix)
                   else fs.abspath path) ∧
      fs.isFile q = true ∧ splitextExt q = suffix := by
  unfold sort_all_apropriate_files
  rw [List.mem_filter]
  simp [Bool.and_eq_true, beq_iff_eq, and_assoc]

/-- Claim C9: the local `help` command looks its argument up with a bare
dictionary subscript: an argument naming no command makes `help` abort
with `KeyError(argument)` instead of printing anything, while an argument
that names a command safely yields that command's docstring. -/
theorem helpCommand_unknown_key (c : String) :
    (c ∉ commandsTable.map Prod.fst → helpCommand (some c) = .error c) ∧
    (c ∈ commandsTable.map Prod.fst → ∃ doc, helpCommand (some c) = .ok [doc]) := by
  constructor
  · intro h
    have hb : ("basic" : String) ∈ commandsTable.map Prod.fst := by decide
    have hc : ("chi_sq" : String) ∈ commandsTable.map Prod.fst := by decide
    have hh : ("help" : String) ∈ commandsTable.map Prod.fst := by decide
    have h1 : "basic" ≠ c := fun e => h (e ▸ hb)
    have h2 : "chi_sq" ≠ c := fun e => h (e ▸ hc)
    have h3 : "help" ≠ c := fun e => h (e ▸ hh)
    simp [helpCommand, commandsTable, lookupDict, h1, h2, h3]
  · intro h
    have hcases : c = "basic" ∨ c = "chi_sq" ∨ c = "help" := by
      simpa [commandsTable] using h
    rcases hcases with h0 | h0 | h0 <;> subst h0
    · exact ⟨basic_doc, rfl⟩
    · exact ⟨chi_sq_doc, rfl⟩
    · exact ⟨help_doc, rfl⟩

/-- Claim C9 (witness): `help frobnicate` raises the lookup error, while
`help basic` succeeds. -/
theorem helpCommand_unknown_key_witness :
    ("frobnicate" ∉ commandsTable.map Prod.fst ∧
      helpCommand (some "frobnicate") = .error "frobnicate") ∧
    ("basic" ∈ commandsTable.map Prod.fst ∧
      ∃ doc, helpCommand (some "basic") = .ok [doc]) :=
  ⟨⟨by decide, (helpCommand_unknown_key "frobnicate").1 (by decide)⟩,
   ⟨by decide, (helpCommand_unknown_key "basic").2 (by decide)⟩⟩

lemma dictInsert_keysCount {α : Type} (m : List (String × α)) (k : String) (v : α)
    (d : String) :
    keysCount (dictInsert m k v) d =
      if k = d then max (keysCount m d) 1 else keysCount m d := by
  induction m with
  | nil => by_cases hd : k = d <;> simp [dictInsert, keysCount, hd]
  | cons p rest ih =>
    obtain ⟨a, b⟩ := p
    by_cases hak : a = k
    · have h1 : dictInsert ((a, b) :: rest) k v = (k, v) :: rest := by
        simp [dictInsert, hak]
      rw [h1]
      subst hak
      by_cases hd : a = d <;> simp [keysCount, hd]
    · have h1 : dictInsert ((a, b) :: rest) k v = (a, b) :: dictInsert rest k v := by
        simp [dictInsert, hak]
      rw [h1]
      by_cases hd : k = d
      · subst hd
        simp [keysCount, hak, ih]
      · simp [keysCount, hd, ih]

lemma dictInsert_lookup {α : Type} (m : List (String × α)) (k : String) (v : α)
    (d : String) :
    lookupDict (dictInsert m k v) d = if k = d then some v else lookupDict m d := by
  induction m with
  | nil => simp [dictInsert, lookupDict]
  | cons p rest ih =>
    obtain ⟨a, b⟩ := p
    by_cases hak : a = k
    · have h1 : dictInsert ((a, b) :: rest) k v = (k, v) :: rest := by
        simp [dictInsert, hak]
      rw [h1]
      subst hak
      by_cases hd : a = d <;> simp [lookupDict, hd]
    · have h1 : dictInsert ((a, b) :: rest) k v = (a, b) :: dictInsert rest k v := by
        simp [dictInsert, hak]
      rw [h1]
      by_cases had : a = d
      · have hkd : ¬ k = d := fun e => hak (had.trans e.symm)
        simp [lookupDict, had, hkd]
      · simp [lookupDict, had, ih]

lemma find?_append_cases {α : Type} (p : α → Bool) (l1 l2 : List α) :
    (l1 ++ l2).find? p = match l1.find? p with
      | some x => some x
      | none => l2.find? p := by
  induction l1 with
  | nil => simp
  | cons a t ih =>
    by_cases h : p a
    · simp [List.find?, h]
    · simp [List.find?, h, ih]

lemma calcChiSqLoop_lookup (d : String) (recs : List (String × List ℚ)) :
    ∀ m, lookupDict (calcChiSqLoop recs m) d =
      match recs.reverse.find? (fun r => r.1 == d) with
      | some r => some (chisquare r.2)
      | none => lookupDict m d := by
  induction recs with
  | nil => intro m; simp [calcChiSqLoop]
  | cons r rs ih =>
    intro m
    rw [calcChiSqLoop, ih, List.reverse_cons, find?_append_cases]
    cases hf : rs.reverse.find? (fun r => r.1 == d) with
    | some x => rfl
    | none =>
      rw [dictInsert_lookup]
      by_cases hd : r.1 = d
      · have hb : (r.1 == d) = true := beq_iff_eq.mpr hd
        simp [List.find?, hd, hb]
      · have hb : (r.1 == d) = false := beq_eq_false_iff_ne.mpr hd
        simp [List.find?, hd, hb]

lemma calcChiSqLoop_count_le (d : String) (recs : List (String × List ℚ)) :
    ∀ m, keysCount m d ≤ 1 → keysCount (calcChiSqLoop recs m) d ≤ 1 := by
  induction recs with
  | nil => intro m h; simpa [calcChiSqLoop] using h
  | cons r rs ih =>
    intro m h
    rw [calcChiSqLoop]
    apply ih
    rw [dictInsert_keysCount]
    by_cases hd : r.1 = d <;> simp [hd] <;> omega

lemma calcChiSqLoop_count_mem (d : String) (recs : List (String × List ℚ)) :
    ∀ m, ((∃ obs, (d, obs) ∈ recs) ∨ keysCount m d = 1) → keysCount m d ≤ 1 →
      keysCount (calcChiSqLoop recs m) d = 1 := by
  induction recs with
  | nil =>
    intro m hmem hle
    rcases hmem with ⟨obs, hobs⟩ | h1
    · exact absurd hobs (List.not_mem_nil _)
    · simpa [calcChiSqLoop] using h1
  | cons r rs ih =>
    intro m hmem hle
    rw [calcChiSqLoop]
    have hle2 : keysCount (dictInsert m r.1 (chisquare r.2)) d ≤ 1 := by
      rw [dictInsert_keysCount]
      by_cases hd : r.1 = d <;> simp [hd] <;> omega
    apply ih _ ?_ hle2
    by_cases hd : r.1 = d
    · right
      rw [dictInsert_keysCount]
      simp [hd]
      exact hle
    · rcases hmem with ⟨obs, hobs⟩ | h1
      · rcases List.mem_cons.mp hobs with he | hin
        · exact absurd (by rw [← he]) hd
        · exact Or.inl ⟨obs, hin⟩
      · right
        rw [dictInsert_keysCount]
        simp [hd]
        exact h1

/-- Claim C1 (amended): the `chi_sq` aggregate mapping is keyed by the
verbatim (untrimmed) description string: whenever some record carries the
exact description `d`, the mapping holds exactly one entry under `d`, whose
value is the chi-squared result of the last such record (later records
silently overwrite earlier ones with the identical verbatim description);
descriptions that agree only after trimming remain distinct keys. -/
theorem calculate_chi_squared_keyed_verbatim (recs : List (String × List ℚ)) (d : String)
    (h : ∃ obs, (d, obs) ∈ recs) :
    keysCount (calculate_chi_squared recs) d = 1 ∧
    lookupDict (calculate_chi_squared recs) d =
      (recs.reverse.find? (fun r => r.1 == d)).map (fun r => chisquare r.2) := by
  constructor
  · exact calcChiSqLoop_count_mem d recs [] (Or.inl h) (by simp [keysCount])
  · rw [calculate_chi_squared, calcChiSqLoop_lookup]
    cases hf : recs.reverse.find? (fun r => r.1 == d) with
    | some x => rfl
    | none => simp [lookupDict]

/-- Claim C1 (amended, witness): three records, the first and last sharing
the verbatim description, leave one entry for it holding the last result. -/
theorem calculate_chi_squared_keyed_verbatim_witness :
    keysCount (calculate_chi_squared [("A\n", [1, 2]), ("B\n", [3]), ("A\n", [4, 5])]) "A\n" = 1 ∧
    lookupDict (calculate_chi_squared [("A\n", [1, 2]), ("B\n", [3]), ("A\n", [4, 5])]) "A\n" =
      (([("A\n", [1, 2]), ("B\n", [3]), ("A\n", [4, 5])] : List (String × List ℚ)).reverse.find?
        (fun r => r.1 == "A\n")).map (fun r => chisquare r.2) :=
  calculate_chi_squared_keyed_verbatim _ "A\n" ⟨[1, 2], List.mem_cons_self _ _⟩

/-- Claim C1 (counterexample): two parsed die files whose descriptions
differ verbatim (`"A\n"` and `"A \n"`) but are identical after trimming
yield TWO entries in the `chi_sq` aggregate mapping, not one — the mapping
is keyed by the untrimmed description, trimming happens only at display
time. -/
theorem chiSqAggregate_trimmed_collision_two_entries :
    Except.map (fun m => m.countP (fun p => pyStrip p.1 == "A"))
      (chiSqAggregate [["A\n", "1\n", "2\n"], ["A \n", "1\n", "2\n"]]) = .ok 2 := by
  rfl

lemma dropWhile_append_all {α : Type} (p : α → Bool) (l1 l2 : List α)
    (h : ∀ x ∈ l1, p x = true) :
    List.dropWhile p (l1 ++ l2) = List.dropWhile p l2 := by
  induction l1 with
  | nil => simp
  | cons a t ih =>
    rw [List.cons_append, List.dropWhile_cons, h a (List.mem_cons_self a t)]
    simp only []
    exact ih (fun x hx => h x (List.mem_cons_of_mem a hx))

lemma isPyWs_eq_false_of_isDigit (c : Char) (h : c.isDigit = true) :
    isPyWs c = false := by
  cases hw : isPyWs c
  · rfl
  · exfalso
    unfold isPyWs at hw
    simp only [Bool.or_eq_true, beq_iff_eq] at hw
    rcases hw with ((((h1 | h1) | h1) | h1) | h1) | h1 <;> subst h1 <;>
      exact absurd h (by decide)

lemma pyStripChars_sandwich (ws1 ws2 core : List Char)
    (h1 : ∀ x ∈ ws1, isPyWs x = true) (h2 : ∀ x ∈ ws2, isPyWs x = true)
    (hne : core ≠ [])
    (hh : ∀ x, core.head? = some x → isPyWs x = false)
    (hl : ∀ x, core.getLast? = some x → isPyWs x = false) :
    pyStripChars (ws1 ++ core ++ ws2) = core := by
  unfold pyStripChars
  obtain ⟨c, rest, rfl⟩ : ∃ c rest, core = c :: rest := by
    cases core with
    | nil => exact absurd rfl hne
    | cons c rest => exact ⟨c, rest, rfl⟩
  have hc : isPyWs c = false := hh c rfl
  have e1 : List.dropWhile isPyWs (ws1 ++ (c :: rest) ++ ws2) = (c :: rest) ++ ws2 := by
    rw [List.append_assoc, dropWhile_append_all isPyWs ws1 _ h1, List.cons_append,
      List.dropWhile_cons, hc]
    simp
  rw [e1]
  obtain ⟨ini, d, hcore⟩ : ∃ ini d, (c :: rest : List Char) = ini ++ [d] := by
    rcases List.eq_nil_or_concat (c :: rest) with h | ⟨ini, d, h⟩
    · exact absurd h (by simp)
    · exact ⟨ini, d, h.trans (List.concat_eq_append ini d)⟩
  have hd : isPyWs d = false := by
    apply hl
    rw [hcore]
    exact List.getLast?_concat ini
  rw [List.reverse_append,
    dropWhile_append_all isPyWs ws2.reverse _ (fun x hx => h2 x (List.mem_reverse.mp hx)),
    hcore, List.reverse_append]
  simp only [List.reverse_cons, List.reverse_nil, List.nil_append, List.cons_append]
  rw [List.dropWhile_cons, hd]
  simp

lemma digitsVal_all_digits (cs : List Char) :
    ∀ acc, (∀ c ∈ cs, c.isDigit = true) →
      digitsVal cs acc = some (cs.foldl (fun a c => 10 * a + (c.toNat - 48)) acc) := by
  induction cs with
  | nil => intro acc _; rfl
  | cons c t ih =>
    intro acc h
    rw [digitsVal, if_pos (h c (List.mem_cons_self c t))]
    rw [ih _ (fun x hx => h x (List.mem_cons_of_mem c hx))]
    rfl

lemma parseDigits_all_digits (ds : List Char) (hne : ds ≠ [])
    (h : ∀ c ∈ ds, c.isDigit = true) :
    parseDigits ds = some (digitsNat ds) := by
  cases ds with
  | nil => exact absurd rfl hne
  | cons c t =>
    rw [parseDigits, digitsVal_all_digits _ _ h]
    rfl

/-- Claim C10: roll-line parsing is as lenient as Python `int`: any
non-first line made of optional surrounding whitespace, one optional sign
and a non-empty digit run parses successfully, and the file record counts
one occurrence under the (possibly negative) integer the line denotes. -/
theorem read_die_file_lenient_integer_lines
    (ws1 ws2 ds sgn : List Char) (desc : String)
    (h1 : ∀ x ∈ ws1, isPyWs x = true) (h2 : ∀ x ∈ ws2, isPyWs x = true)
    (hds : ds ≠ []) (hdig : ∀ c ∈ ds, c.isDigit = true)
    (hsgn : sgn = [] ∨ sgn = ['+'] ∨ sgn = ['-']) :
    read_die_file (some [desc, String.mk (ws1 ++ (sgn ++ ds) ++ ws2)]) =
      .ok (desc, [(pySignVal sgn (digitsNat ds), 1)]) := by
  have core_ne : sgn ++ ds ≠ [] := fun e => hds (List.append_eq_nil.mp e).2
  obtain ⟨ini, dl, hds_eq⟩ : ∃ ini dl, ds = ini ++ [dl] := by
    rcases List.eq_nil_or_concat ds with h | ⟨ini, dl, h⟩
    · exact absurd h hds
    · exact ⟨ini, dl, h.trans (List.concat_eq_append ini dl)⟩
  have hdl_digit : dl.isDigit = true := by
    apply hdig
    rw [hds_eq]
    exact List.mem_append_right ini (by simp)
  have hlast : ∀ x, (sgn ++ ds).getLast? = some x → isPyWs x = false := by
    intro x hx
    rw [hds_eq, ← List.append_assoc, List.getLast?_concat] at hx
    injection hx with he
    subst he
    exact isPyWs_eq_false_of_isDigit dl hdl_digit
  have hparse : parseDigits ds = some (digitsNat ds) := parseDigits_all_digits ds hds hdig
  have hhead : ∀ x, (sgn ++ ds).head? = some x → isPyWs x = false := by
    rcases hsgn with hs | hs | hs <;> subst hs
    · intro x hx
      simp only [List.nil_append] at hx
      cases ds with
      | nil => exact absurd rfl hds
      | cons d t =>
        simp only [List.head?_cons] at hx
        injection hx with he
        subst he
        exact isPyWs_eq_false_of_isDigit d (hdig d (List.mem_cons_self d t))
    · intro x hx
      simp only [List.singleton_append, List.head?_cons] at hx
      injection hx with he
      subst he
      decide
    · intro x hx
      simp only [List.singleton_append, List.head?_cons] at hx
      injection hx with he
      subst he
      decide
  have hstrip : pyStripChars (ws1 ++ (sgn ++ ds) ++ ws2) = sgn ++ ds :=
    pyStripChars_sandwich ws1 ws2 (sgn ++ ds) h1 h2 core_ne hhead hlast
  have hpy : pythonInt (String.mk (ws1 ++ (sgn ++ ds) ++ ws2)) =
      some (pySignVal sgn (digitsNat ds)) := by
    unfold pythonInt
    rw [show (String.mk (ws1 ++ (sgn ++ ds) ++ ws2)).toList = ws1 ++ (sgn ++ ds) ++ ws2 from rfl,
      hstrip]
    rcases hsgn with hs | hs | hs <;> subst hs
    · cases ds with
      | nil => exact absurd rfl hds
      | cons d t =>
        have hd : d.isDigit = true := hdig d (List.mem_cons_self d t)
        have hplus : ¬ d = '+' := fun e => by subst e; exact absurd hd (by decide)
        have hminus : ¬ d = '-' := fun e => by subst e; exact absurd hd (by decide)
        simp only [List.nil_append, pythonIntCore]
        rw [if_neg hplus, if_neg hminus, hparse]
        simp [pySignVal]
    · simp only [List.singleton_append, pythonIntCore]
      simp [hparse, pySignVal]
    · simp only [List.singleton_append, pythonIntCore]
      simp [hparse, pySignVal]
  generalize hq : String.mk (ws1 ++ (sgn ++ ds) ++ ws2) = line at hpy ⊢
  simp [read_die_file, read_die_file_loop, hpy, addRoll]

/-- Claim C10 (witness): the line `" -3 \n"` parses and is counted under
the key `-3`. -/
theorem read_die_file_lenient_integer_lines_witness :
    read_die_file (some ["d", String.mk ([' '] ++ (['-'] ++ ['3']) ++ [' ', '\n'])]) =
      .ok ("d", [(pySignVal ['-'] (digitsNat ['3']), 1)]) :=
  read_die_file_lenient_integer_lines [' '] [' ', '\n'] ['3'] ['-'] "d"
    (by decide) (by decide) (by decide) (by decide) (Or.inr (Or.inr rfl))
